import Mathlib

/-!
Shallow embedding of the Google Drive copy-files program
(`drive_service.py`, `app.py`) and proofs about its core algorithms:
the folder tree builder, the name resolver and the batch copy loop.

Remote calls are modelled by explicit data: the pages a paginated
listing returns, the file listing of a folder, and an injected copy
function that may fail.
-/

namespace DriveCopy

/-- A folder record as used by `build_folder_paths`: `id`, `name` and the
normalized `parents` list (`list_folders_with_parents` guarantees the
field is always a list). -/
structure FolderRec where
  id : String
  name : String
  parents : List String
deriving DecidableEq, Repr

/-- A file record as returned by `list_files_in_folder`:
`id`, `name`, `mimeType`. -/
structure FileRec where
  id : String
  name : String
  mimeType : String
deriving DecidableEq, Repr

/-! ## Python string primitives

`str.lower`, `str.strip`, `c in s`, string comparison and stable
`sorted` are modelled by structural recursion over the character data
of the string, following Python's code-point semantics. -/

/-- Python `s.lower()`: lowercase every character. -/
def pyLower (s : String) : String := String.mk (s.data.map Char.toLower)

/-- Python `s.strip()`: drop leading and trailing whitespace. -/
def pyStrip (s : String) : String :=
  String.mk (((s.data.dropWhile Char.isWhitespace).reverse.dropWhile
    Char.isWhitespace).reverse)

/-- Python `c in s` for a single-character needle. -/
def pyContains (s : String) (c : Char) : Bool := s.data.contains c

/-- Strict `<` on code-point lists, as Python compares strings. -/
def charListLt : List Char → List Char → Bool
  | [], [] => false
  | [], _ :: _ => true
  | _ :: _, [] => false
  | a :: as, b :: bs =>
    if a.toNat < b.toNat then true
    else if b.toNat < a.toNat then false
    else charListLt as bs

/-- Python string `<`. -/
def strLt (a b : String) : Bool := charListLt a.data b.data

/-- Python string `<=`. -/
def strLe (a b : String) : Bool := strLt a b || a == b

/-- Python's stable `sorted(l)` / `l.sort()` under the total preorder
`le`: a stable insertion sort, which agrees with any stable sort. -/
def pySorted (le : α → α → Bool) (l : List α) : List α :=
  List.insertionSort (fun a b => le a b = true) l

/-! ## Paginated folder listing (`list_folders_with_parents`) -/

/-- A raw folder record as it arrives from the remote service: the
`parents` field may be absent (`none`). -/
structure RawFolder where
  id : String
  name : String
  parents : Option (List String)
deriving DecidableEq, Repr

/-- The per-record normalization done by `list_folders_with_parents`:
`if "parents" not in f: f["parents"] = []`. -/
def normalizeFolder (f : RawFolder) : FolderRec :=
  { id := f.id, name := f.name, parents := f.parents.getD [] }

/-- Python `list_folders_with_parents`, with the remote pagination modelled as
the list of pages the service returns; the loop walks the pages in
order, normalizing each record and appending it to the accumulator. -/
def list_folders_with_parents (pages : List (List RawFolder)) : List FolderRec :=
  pages.foldl (fun folders page => folders ++ page.map normalizeFolder) []

/-! ## Name resolver (`resolve_names_to_file_ids`) -/

/-- An index mapping a lowercased key to the ordered bucket of
`(file_id, name)` pairs, modelling a Python dict built by
`d.setdefault(key, []).append(v)`-style insertion. -/
abbrev NameIndex := List (String × List (String × String))

/-- Python `if key not in d: d[key] = []` followed by `d[key].append(v)`:
append `v` to the bucket of `key`, creating the bucket if absent. -/
def bucketAppend (d : NameIndex) (key : String) (v : String × String) : NameIndex :=
  match d with
  | [] => [(key, [v])]
  | (k, vs) :: rest =>
    if k = key then (k, vs ++ [v]) :: rest else (k, vs) :: bucketAppend rest key v

/-- Python `key in d` / `d[key]`: look a key up in the index. -/
def bucketLookup (d : NameIndex) (key : String) : Option (List (String × String)) :=
  match d with
  | [] => none
  | (k, vs) :: rest => if k = key then some vs else bucketLookup rest key

/-- Python `key.rsplit(".", 1)[0]`: everything before the last `"."`. -/
def dropLastExt (key : String) : String :=
  String.mk (((key.data.reverse.dropWhile (fun c => c ≠ '.')).drop 1).reverse)

/-- The base-name key of a file name `n`:
`key.rsplit(".", 1)[0] if "." in n else key` where `key = n.lower()`. -/
def baseKey (n : String) : String :=
  if pyContains n '.' then dropLastExt (pyLower n) else pyLower n

/-- The loop of `resolve_names_to_file_ids` that builds the two lookup
indices over the folder's files: (a) keyed by lowercased full name,
(b) keyed by lowercased base name. -/
def buildIndexes (files : List FileRec) : NameIndex × NameIndex :=
  files.foldl
    (fun d f =>
      (bucketAppend d.1 (pyLower f.name) (f.id, f.name),
       bucketAppend d.2 (baseKey f.name) (f.id, f.name)))
    ([], [])

/-- The matching loop of `resolve_names_to_file_ids`: for each requested
name try the exact-name index first, then the base-name index, else
record the name as not found. -/
def resolveLoop (nameIdx baseIdx : NameIndex) :
    List String → List (String × String) × List String
  | [] => ([], [])
  | n :: rest =>
    let r := resolveLoop nameIdx baseIdx rest
    match bucketLookup nameIdx (pyLower n) with
    | some bucket => (bucket ++ r.1, r.2)
    | none =>
      match bucketLookup baseIdx (baseKey n) with
      | some bucket => (bucket ++ r.1, r.2)
      | none => (r.1, n :: r.2)

/-- Result of the resolver; `listed` records whether the remote
file-listing call was performed. -/
structure ResolutionResult where
  matched : List (String × String)
  unresolved : List String
  listed : Bool
deriving DecidableEq, Repr

/-- Python `requested = [n.strip() for n in names if n.strip()]`. -/
def requestedOf (names : List String) : List String :=
  names.filterMap (fun n => if pyStrip n = "" then none else some (pyStrip n))

/-- Python `resolve_names_to_file_ids`, with the folder's file listing passed
explicitly; `listed = false` on the early return taken before the
listing call. -/
def resolve_names_to_file_ids (files : List FileRec) (names : List String) :
    ResolutionResult :=
  let requested := requestedOf names
  if requested.isEmpty then ⟨[], [], false⟩
  else
    let idx := buildIndexes files
    let r := resolveLoop idx.1 idx.2 requested
    ⟨r.1, r.2, true⟩

/-! ## Copy loop (`app.py` main, around the `copy_file_to_folder` calls) -/

/-- The per-item copy loop of `app.py`: walk the pairs in order, count
successes, record one error string `f"{file_name}: {e}"` per failing
item, and additionally trace every attempted pair. -/
def copyLoopGo (copyFn : String → String → Except String String) :
    List (String × String) → Nat → List String → List (String × String) →
    Nat × List String × List (String × String)
  | [], success, errors, tried => (success, errors, tried)
  | (fileId, fileName) :: rest, success, errors, tried =>
    match copyFn fileId fileName with
    | .ok _ => copyLoopGo copyFn rest (success + 1) errors (tried ++ [(fileId, fileName)])
    | .error e =>
      copyLoopGo copyFn rest success (errors ++ [fileName ++ ": " ++ e])
        (tried ++ [(fileId, fileName)])

/-- The whole copy loop: returns (succeeded, perItemErrors, attempted pairs). -/
def copy_all (copyFn : String → String → Except String String)
    (pairs : List (String × String)) : Nat × List String × List (String × String) :=
  copyLoopGo copyFn pairs 0 [] []

/-! ## Characterization lemmas for the indices and the resolver -/

/-- The exact-name key of a file: its lowercased name. -/
def fileNameKey (f : FileRec) : String := pyLower f.name

/-- The base-name key of a file, as computed inside the index-building loop. -/
def fileBaseKey (f : FileRec) : String := baseKey f.name

/-- Folding one index: insert each file under `keyfn f`. -/
def indexBy (keyfn : FileRec → String) (d : NameIndex) (files : List FileRec) : NameIndex :=
  files.foldl (fun d f => bucketAppend d (keyfn f) (f.id, f.name)) d

/-- The bucket an index finally associates to a key: all `(id, name)`
pairs of files whose key matches, in listing order. -/
def bucketOf (keyfn : FileRec → String) (files : List FileRec) (k : String) :
    List (String × String) :=
  (files.filter (fun f => keyfn f = k)).map (fun f => (f.id, f.name))

theorem bucketLookup_bucketAppend (d : NameIndex) (k k' : String) (v : String × String) :
    bucketLookup (bucketAppend d k v) k' =
      if k' = k then some ((bucketLookup d k).getD [] ++ [v]) else bucketLookup d k' := by
  induction d with
  | nil =>
    by_cases h : k' = k
    · subst h; simp [bucketAppend, bucketLookup]
    · simp [bucketAppend, bucketLookup, h, Ne.symm h]
  | cons hd tl ih =>
    obtain ⟨kh, vh⟩ := hd
    by_cases h1 : kh = k
    · subst h1
      by_cases h2 : k' = kh
      · subst h2; simp [bucketAppend, bucketLookup]
      · simp [bucketAppend, bucketLookup, h2, Ne.symm h2]
    · by_cases h2 : k' = kh
      · subst h2
        simp [bucketAppend, bucketLookup, h1]
      · simp [bucketAppend, bucketLookup, h1, h2, Ne.symm h2, ih]

theorem bucketLookup_indexBy (keyfn : FileRec → String) (files : List FileRec) :
    ∀ (d : NameIndex) (k : String),
      bucketLookup (indexBy keyfn d files) k =
        match bucketLookup d k with
        | some vs => some (vs ++ bucketOf keyfn files k)
        | none =>
          if bucketOf keyfn files k = [] then none else some (bucketOf keyfn files k) := by
  induction files with
  | nil =>
    intro d k
    cases h : bucketLookup d k <;> simp [indexBy, bucketOf, h]
  | cons f fs ih =>
    intro d k
    have step : indexBy keyfn d (f :: fs) = indexBy keyfn (bucketAppend d (keyfn f) (f.id, f.name)) fs := by
      simp [indexBy]
    rw [step, ih]
    rw [bucketLookup_bucketAppend]
    by_cases hk : keyfn f = k
    · have hbucket : bucketOf keyfn (f :: fs) k = (f.id, f.name) :: bucketOf keyfn fs k := by
        simp [bucketOf, List.filter_cons, hk]
      rw [if_pos hk.symm, hk]
      cases h : bucketLookup d k <;> simp [h, hbucket]
    · have hbucket : bucketOf keyfn (f :: fs) k = bucketOf keyfn fs k := by
        simp [bucketOf, List.filter_cons, hk]
      rw [if_neg (fun h => hk h.symm), hbucket]

/-- The pair of indices built by the resolver's first loop, described
via `indexBy`. -/
theorem buildIndexes_eq (files : List FileRec) :
    buildIndexes files = (indexBy fileNameKey [] files, indexBy fileBaseKey [] files) := by
  have general : ∀ (fs : List FileRec) (d1 d2 : NameIndex),
      fs.foldl (fun d (f : FileRec) =>
          (bucketAppend d.1 (pyLower f.name) (f.id, f.name),
           bucketAppend d.2 (baseKey f.name) (f.id, f.name))) (d1, d2) =
        (indexBy fileNameKey d1 fs, indexBy fileBaseKey d2 fs) := by
    intro fs
    induction fs with
    | nil => intro d1 d2; simp [indexBy]
    | cons f fs ih =>
      intro d1 d2
      simp only [List.foldl_cons]
      rw [ih]
      simp [indexBy, fileNameKey, fileBaseKey]
  simpa [buildIndexes] using general files [] []

/-- The contribution of one trimmed requested name `n`: the exact-name
bucket when it is nonempty, otherwise the base-name bucket when it is
nonempty, otherwise nothing. -/
def contribution (files : List FileRec) (n : String) : List (String × String) :=
  if bucketOf fileNameKey files (pyLower n) ≠ [] then bucketOf fileNameKey files (pyLower n)
  else if bucketOf fileBaseKey files (baseKey n) ≠ [] then bucketOf fileBaseKey files (baseKey n)
  else []

theorem resolveLoop_eq (files : List FileRec) (req : List String) :
    resolveLoop (indexBy fileNameKey [] files) (indexBy fileBaseKey [] files) req =
      (req.flatMap (contribution files), req.filter (fun n => contribution files n = [])) := by
  induction req with
  | nil => simp [resolveLoop]
  | cons n rest ih =>
    have hname := bucketLookup_indexBy fileNameKey files [] (pyLower n)
    have hbase := bucketLookup_indexBy fileBaseKey files [] (baseKey n)
    simp only [bucketLookup] at hname hbase
    by_cases h1 : bucketOf fileNameKey files (pyLower n) = []
    · by_cases h2 : bucketOf fileBaseKey files (baseKey n) = []
      · simp only [resolveLoop, ih, hname, hbase, h1, h2, if_pos]
        simp [contribution, h1, h2]
      · simp only [resolveLoop, ih, hname, hbase, h1, h2, if_pos, if_neg h2]
        simp [contribution, h1, h2]
    · simp only [resolveLoop, ih, hname, if_neg h1]
      simp [contribution, h1]

/-- The resolver, fully characterized by `contribution`. -/
theorem resolve_eq (files : List FileRec) (names : List String)
    (h : ¬ (requestedOf names).isEmpty) :
    resolve_names_to_file_ids files names =
      ⟨(requestedOf names).flatMap (contribution files),
       (requestedOf names).filter (fun n => contribution files n = []), true⟩ := by
  unfold resolve_names_to_file_ids
  rw [if_neg h, buildIndexes_eq]
  simp only [resolveLoop_eq]

theorem mem_bucketOf {keyfn : FileRec → String} {files : List FileRec} {k : String}
    {pr : String × String} (h : pr ∈ bucketOf keyfn files k) :
    ∃ f ∈ files, pr.1 = f.id ∧ pr.2 = f.name := by
  simp only [bucketOf, List.mem_map, List.mem_filter] at h
  obtain ⟨f, ⟨hf, _⟩, rfl⟩ := h
  exact ⟨f, hf, rfl, rfl⟩

theorem mem_contribution {files : List FileRec} {n : String} {pr : String × String}
    (h : pr ∈ contribution files n) :
    ∃ f ∈ files, pr.1 = f.id ∧ pr.2 = f.name := by
  unfold contribution at h
  split at h
  · exact mem_bucketOf h
  · split at h
    · exact mem_bucketOf h
    · simp at h

theorem mem_requestedOf {names : List String} {u : String} (h : u ∈ requestedOf names) :
    ∃ n ∈ names, u = pyStrip n ∧ pyStrip n ≠ "" := by
  simp only [requestedOf, List.mem_filterMap] at h
  obtain ⟨n, hn, hu⟩ := h
  by_cases he : pyStrip n = ""
  · simp [he] at hu
  · simp only [if_neg he] at hu
    exact ⟨n, hn, (Option.some_injective _ hu).symm, he⟩

theorem resolve_matched_eq (files : List FileRec) (names : List String) :
    (resolve_names_to_file_ids files names).matched =
      (requestedOf names).flatMap (contribution files) := by
  by_cases h : (requestedOf names).isEmpty
  · rw [List.isEmpty_iff] at h
    unfold resolve_names_to_file_ids
    simp [h]
  · rw [resolve_eq files names h]

theorem resolve_unresolved_eq (files : List FileRec) (names : List String) :
    (resolve_names_to_file_ids files names).unresolved =
      (requestedOf names).filter (fun n => contribution files n = []) := by
  by_cases h : (requestedOf names).isEmpty
  · rw [List.isEmpty_iff] at h
    unfold resolve_names_to_file_ids
    simp [h]
  · rw [resolve_eq files names h]

/-! ## Claim theorems for the resolver -/

/-- C3: for every requested name the resolver first consults the
exact-name index (all files whose lowercased name equals the lowercased
request), and only when that bucket is absent the base-name index;
whichever bucket is found is appended whole to `matched`, in the
bucket's original listing order (this is what `contribution` computes
as an order-preserving filter of the listing); in particular, for files
"photo.JPG" and "photo.jpg" and request ["photo.jpg"], both ids are
matched. -/
theorem C3_resolver_priority_fanout (files : List FileRec) (names : List String) :
    ((resolve_names_to_file_ids files names).matched =
        (requestedOf names).flatMap (contribution files)
      ∧ ∀ n : String,
          contribution files n =
            (if bucketOf fileNameKey files (pyLower n) ≠ [] then
              bucketOf fileNameKey files (pyLower n)
            else if bucketOf fileBaseKey files (baseKey n) ≠ [] then
              bucketOf fileBaseKey files (baseKey n)
            else []))
    ∧ resolve_names_to_file_ids
        [⟨"1", "photo.JPG", "image/jpeg"⟩, ⟨"2", "photo.jpg", "image/jpeg"⟩]
        ["photo.jpg"] =
      ⟨[("1", "photo.JPG"), ("2", "photo.jpg")], [], true⟩ := by
  refine ⟨⟨resolve_matched_eq files names, fun n => rfl⟩, by decide⟩

/-- C7: if every requested name trims to the empty string (including an
empty request list), the resolver returns the empty result without the
file-listing call (`listed = false`). -/
theorem C7_empty_request (files : List FileRec) (names : List String)
    (h : ∀ n ∈ names, pyStrip n = "") :
    resolve_names_to_file_ids files names = ⟨[], [], false⟩ := by
  have hreq : requestedOf names = [] := by
    rw [requestedOf, List.filterMap_eq_nil_iff]
    intro n hn
    simp [h n hn]
  unfold resolve_names_to_file_ids
  simp [hreq]

theorem C7_empty_request_witness :
    resolve_names_to_file_ids [⟨"a", "x.txt", "text/plain"⟩] ["", "   "] =
      ⟨[], [], false⟩ :=
  C7_empty_request _ _ (by decide)

/-- C8 counterexample: the claim says the string appended to
`unresolved` is character-for-character the string supplied by the
caller; but for the request `[" x "]` against an empty folder the code
appends the trimmed `"x"`, not `" x "`. -/
theorem C8_counterexample :
    (resolve_names_to_file_ids [] [" x "]).unresolved = ["x"]
    ∧ (" x " : String) ∉ (resolve_names_to_file_ids [] [" x "]).unresolved := by
  constructor
  · decide
  · decide

/-- C8 amended: the string appended to `unresolved` for a requested
name with no match is the trimmed requested string, kept verbatim from
that point on (no lowercasing or extension stripping); it equals the
caller's string exactly when the caller's string carries no surrounding
whitespace. -/
theorem C8_unresolved_verbatim_trimmed (files : List FileRec) (names : List String) :
    (resolve_names_to_file_ids files names).unresolved =
      (requestedOf names).filter (fun n => contribution files n = [])
    ∧ ∀ u ∈ (resolve_names_to_file_ids files names).unresolved,
        ∃ n ∈ names, u = pyStrip n := by
  refine ⟨resolve_unresolved_eq files names, fun u hu => ?_⟩
  rw [resolve_unresolved_eq] at hu
  have hu' : u ∈ requestedOf names := List.mem_of_mem_filter hu
  obtain ⟨n, hn, hue, _⟩ := mem_requestedOf hu'
  exact ⟨n, hn, hue⟩

theorem C8_unresolved_verbatim_trimmed_witness :
    ((resolve_names_to_file_ids [] [" x "]).unresolved =
        (requestedOf [" x "]).filter (fun n => contribution [] n = []))
    ∧ ∀ u ∈ (resolve_names_to_file_ids [] [" x "]).unresolved,
        ∃ n ∈ [" x "], u = pyStrip n :=
  C8_unresolved_verbatim_trimmed [] [" x "]

/-- C9: soundness and partition. Every matched pair is the `(id, name)`
of a file in the folder's listing, and every trimmed nonempty requested
name either has a nonempty contribution fully present in `matched` and
does not land in `unresolved`, or has an empty contribution and lands
in `unresolved` — with exactly one `unresolved` entry per unmatched
requested occurrence. -/
theorem C9_soundness_partition (files : List FileRec) (names : List String) :
    (∀ pr ∈ (resolve_names_to_file_ids files names).matched,
        ∃ f ∈ files, pr.1 = f.id ∧ pr.2 = f.name)
    ∧ (∀ n ∈ requestedOf names,
        (contribution files n ≠ []
            ∧ (∀ pr ∈ contribution files n,
                pr ∈ (resolve_names_to_file_ids files names).matched)
            ∧ n ∉ (resolve_names_to_file_ids files names).unresolved)
        ∨ (contribution files n = []
            ∧ n ∈ (resolve_names_to_file_ids files names).unresolved))
    ∧ (∀ n : String,
        ((resolve_names_to_file_ids files names).unresolved.count n =
          if contribution files n = [] then (requestedOf names).count n else 0)) := by
  refine ⟨?_, ?_, ?_⟩
  · intro pr hpr
    rw [resolve_matched_eq] at hpr
    obtain ⟨n, _, hc⟩ := List.mem_flatMap.mp hpr
    exact mem_contribution hc
  · intro n hn
    by_cases hc : contribution files n = []
    · right
      refine ⟨hc, ?_⟩
      rw [resolve_unresolved_eq]
      exact List.mem_filter.mpr ⟨hn, by simp [hc]⟩
    · left
      refine ⟨hc, fun pr hpr => ?_, ?_⟩
      · rw [resolve_matched_eq]
        exact List.mem_flatMap.mpr ⟨n, hn, hpr⟩
      · rw [resolve_unresolved_eq]
        intro hmem
        have := (List.mem_filter.mp hmem).2
        simp at this
        exact hc this
  · intro n
    rw [resolve_unresolved_eq]
    by_cases hc : contribution files n = []
    · rw [if_pos hc]
      apply List.count_filter
      simp [hc]
    · rw [if_neg hc]
      rw [List.count_eq_zero]
      intro hmem
      have := (List.mem_filter.mp hmem).2
      simp at this
      exact hc this

/-! ## Claim theorems for the copy loop -/

/-- The error entry the loop records for one pair, if its copy fails. -/
def copyErrOf (copyFn : String → String → Except String String)
    (p : String × String) : Option String :=
  match copyFn p.1 p.2 with
  | .ok _ => none
  | .error e => some (p.2 ++ ": " ++ e)

/-- Number of pairs whose copy succeeds. -/
def copyOkCount (copyFn : String → String → Except String String)
    (pairs : List (String × String)) : Nat :=
  (pairs.filter (fun p => (copyErrOf copyFn p).isNone)).length

theorem copyLoopGo_eq (copyFn : String → String → Except String String) :
    ∀ (pairs : List (String × String)) (success : Nat) (errors : List String)
      (tried : List (String × String)),
      copyLoopGo copyFn pairs success errors tried =
        (success + copyOkCount copyFn pairs,
         errors ++ pairs.filterMap (copyErrOf copyFn),
         tried ++ pairs) := by
  intro pairs
  induction pairs with
  | nil => intro s e t; simp [copyLoopGo, copyOkCount]
  | cons p rest ih =>
    intro s e t
    obtain ⟨fid, fname⟩ := p
    cases hc : copyFn fid fname with
    | ok v =>
      have herr : copyErrOf copyFn (fid, fname) = none := by
        simp [copyErrOf, hc]
      simp only [copyLoopGo, hc, ih, copyOkCount, List.filter_cons,
        List.filterMap_cons, herr]
      refine Prod.ext ?_ (Prod.ext ?_ ?_) <;> simp <;> omega
    | error err =>
      have herr : copyErrOf copyFn (fid, fname) = some (fname ++ ": " ++ err) := by
        simp [copyErrOf, hc]
      simp only [copyLoopGo, hc, ih, copyOkCount, List.filter_cons,
        List.filterMap_cons, herr]
      refine Prod.ext ?_ (Prod.ext ?_ ?_) <;> simp

theorem copyOk_err_length (copyFn : String → String → Except String String)
    (pairs : List (String × String)) :
    copyOkCount copyFn pairs + (pairs.filterMap (copyErrOf copyFn)).length =
      pairs.length := by
  induction pairs with
  | nil => simp [copyOkCount]
  | cons p rest ih =>
    cases hc : copyErrOf copyFn p <;>
      simp [copyOkCount, List.filter_cons, List.filterMap_cons, hc] at * <;>
      omega

/-- C2: the copy loop attempts every pair exactly once in the given
order (the attempt trace equals the input), records exactly one error
entry `name ++ ": " ++ e` per failing pair without stopping, and ends
with `succeeded = attempted - |perItemErrors|` where
`attempted = pairs.length`; concretely, over three pairs where only the
second fails, attempted = 3, succeeded = 2, one error entry for the
second item's name, and the third is still attempted. -/
theorem C2_copy_loop_isolation (copyFn : String → String → Except String String)
    (pairs : List (String × String)) :
    ((copy_all copyFn pairs).2.2 = pairs
      ∧ (copy_all copyFn pairs).2.1 = pairs.filterMap (copyErrOf copyFn)
      ∧ (copy_all copyFn pairs).1 + (copy_all copyFn pairs).2.1.length = pairs.length)
    ∧ copy_all (fun fid _ => if fid = "f2" then .error "boom" else .ok "new")
        [("f1", "A"), ("f2", "B"), ("f3", "C")] =
      (2, ["B: boom"], [("f1", "A"), ("f2", "B"), ("f3", "C")]) := by
  have h := copyLoopGo_eq copyFn pairs 0 [] []
  refine ⟨⟨?_, ?_, ?_⟩, by decide⟩
  · rw [copy_all, h]
    rfl
  · rw [copy_all, h]
    simp
  · rw [copy_all, h]
    simpa using copyOk_err_length copyFn pairs

/-! ## Claim theorem for the parents normalization -/

theorem list_folders_foldl (pages : List (List RawFolder)) :
    ∀ acc : List FolderRec,
      pages.foldl (fun folders page => folders ++ page.map normalizeFolder) acc =
        acc ++ pages.flatten.map normalizeFolder := by
  induction pages with
  | nil => intro acc; simp
  | cons page rest ih =>
    intro acc
    simp [List.foldl_cons, ih, List.append_assoc]

/-- C10: every record produced by `list_folders_with_parents` is the
normalization of a raw record of some page, and normalization replaces
an absent `parents` field by the empty list, so `build_folder_paths`
only ever sees records with a (possibly empty) parents list. -/
theorem C10_parents_normalized (pages : List (List RawFolder)) :
    list_folders_with_parents pages = pages.flatten.map normalizeFolder
    ∧ (∀ f ∈ list_folders_with_parents pages,
        ∃ g ∈ pages.flatten, f = normalizeFolder g)
    ∧ (∀ g : RawFolder, g.parents = none → (normalizeFolder g).parents = []) := by
  have h : list_folders_with_parents pages = pages.flatten.map normalizeFolder := by
    unfold list_folders_with_parents
    simpa using list_folders_foldl pages []
  refine ⟨h, ?_, ?_⟩
  · intro f hf
    rw [h] at hf
    obtain ⟨g, hg, rfl⟩ := List.mem_map.mp hf
    exact ⟨g, hg, rfl⟩
  · intro g hg
    simp [normalizeFolder, hg]

/-! ## Folder tree builder (`build_folder_paths`)

The input is the record list returned by `list_folders_with_parents`;
the recursive `add_node` is embedded with an explicit fuel so that the
traversal is a total, executable function, and termination of the
source recursion is the theorem that a fuel of `raw.length + 2` always
suffices. -/

/-- The virtual root injected into `id_to_folder`. -/
def rootRec : FolderRec := ⟨"root", "My Drive (root)", []⟩

/-- Last-wins lookup, as a Python dict comprehension keyed by id. -/
def lookupLast (raw : List FolderRec) (i : String) : Option FolderRec :=
  raw.foldl (fun acc f => if f.id = i then some f else acc) none

/-- Python `id_to_folder.get(i)`: the dict built from `raw`, with the virtual
root record stored at key `"root"` afterwards (overriding). -/
def idToFolder (raw : List FolderRec) (i : String) : Option FolderRec :=
  if i = "root" then some rootRec else lookupLast raw i

/-- Python `i in id_to_folder`. -/
def inIdToFolder (raw : List FolderRec) (p : String) : Bool :=
  p == "root" || raw.any (fun f => f.id == p)

/-- Python `get_children(parent_id)`: records whose (truthy) parents list
contains `parent_id` — in any position. -/
def get_children (raw : List FolderRec) (pid : String) : List FolderRec :=
  raw.filter (fun f => !f.parents.isEmpty && f.parents.contains pid)

/-- The sort key `lambda f: (f["name"].lower(), f["id"])` as a boolean
total preorder. -/
def childLE (a b : FolderRec) : Bool :=
  strLt (pyLower a.name) (pyLower b.name) ||
    (pyLower a.name == pyLower b.name && strLe a.id b.id)

/-- Python `get_children(parent_id)` followed by the in-place sort performed
in `add_node`. -/
def sortedChildren (raw : List FolderRec) (pid : String) : List FolderRec :=
  pySorted childLE (get_children raw pid)

/-- The display name used for a folder id: the record's name when the
id is known, else the id itself. -/
def nodeName (raw : List FolderRec) (folderId : String) : String :=
  match idToFolder raw folderId with
  | some node => node.name
  | none => folderId

/-- Python `" / ".join(parts)`. -/
def joinSep : List String → String
  | [] => ""
  | [x] => x
  | x :: xs => x ++ " / " ++ joinSep xs

/-- Python `" / ".join(path_parts + [name]) if path_parts else name`. -/
def joinPath (pathParts : List String) (name : String) : String :=
  match pathParts with
  | [] => name
  | _ => joinSep (pathParts ++ [name])

/-- The traversal state of `build_folder_paths`: the `seen` set (most
recently visited id first) and the `paths_and_ids` accumulator. -/
structure TravState where
  seen : List String
  acc : List (String × String)
deriving DecidableEq, Repr

/-- Python `add_node(folder_id, path_parts)`: skip if already seen, else mark
seen, append the `(path, id)` entry, and recurse into the sorted
children. The extra fuel argument bounds the recursion depth; `none`
means the fuel ran out (never happens with the fuel
`build_folder_paths` supplies, as proved below). -/
def addNode (raw : List FolderRec) : Nat → TravState → String → List String →
    Option TravState
  | fuel, s, folderId, pathParts =>
    if folderId ∈ s.seen then some s
    else
      match fuel with
      | 0 => none
      | fuel + 1 =>
        let name := nodeName raw folderId
        let s1 : TravState :=
          ⟨folderId :: s.seen, s.acc ++ [(joinPath pathParts name, folderId)]⟩
        ((sortedChildren raw folderId).map (fun f => f.id)).foldl
          (fun a c =>
            match a with
            | none => none
            | some st => addNode raw fuel st c (pathParts ++ [name]))
          (some s1)

/-- The loop over a node's children inside `add_node` (and over an
orphan's children in the orphan pass), as a standalone function. -/
def addChildren (raw : List FolderRec) (fuel : Nat) (pathParts : List String)
    (s : TravState) (cs : List String) : Option TravState :=
  cs.foldl
    (fun a c =>
      match a with
      | none => none
      | some st => addNode raw fuel st c pathParts)
    (some s)

/-- One iteration of the orphan loop: a record not yet seen whose
parents are absent or whose first parent is unknown is attached
directly under the root label, and its children are traversed. -/
def orphanStep (raw : List FolderRec) (s : TravState) (f : FolderRec) :
    Option TravState :=
  if f.id ∈ s.seen then some s
  else
    let isOrphan :=
      match f.parents with
      | [] => true
      | p :: _ => !inIdToFolder raw p
    if isOrphan then
      let s1 : TravState :=
        ⟨f.id :: s.seen, s.acc ++ [("My Drive (root) / " ++ f.name, f.id)]⟩
      addChildren raw (raw.length + 2) ["My Drive (root)", f.name] s1
        ((get_children raw f.id).map (fun c => c.id))
    else some s

/-- The orphan loop over all records. -/
def orphanPass (raw : List FolderRec) : TravState → List FolderRec →
    Option TravState
  | s, [] => some s
  | s, f :: fs =>
    match orphanStep raw s f with
    | none => none
    | some s1 => orphanPass raw s1 fs

/-- The final sort key `lambda x: (x[0].lower(), x[1])`. -/
def pathLE (a b : String × String) : Bool :=
  strLt (pyLower a.1) (pyLower b.1) ||
    (pyLower a.1 == pyLower b.1 && strLe a.2 b.2)

/-- The label the uniquify loop writes for the `k`-th occurrence of a
path: the path itself for `k = 1`, else `f"{path}  ({k})"` (note the
two spaces in the source's f-string). -/
def suffixLabel (path : String) (k : Nat) : String :=
  if k = 1 then path else path ++ "  (" ++ Nat.repr k ++ ")"

/-- The uniquify loop, with the `path_count` dict as a function. -/
def uniquifyLoop : List (String × String) → (String → Nat) →
    List (String × String)
  | [], _ => []
  | (path, fid) :: rest, cnt =>
    let c := cnt path + 1
    (suffixLabel path c, fid) :: uniquifyLoop rest (fun p => if p = path then c else cnt p)

/-- The label-uniquifying post-process of `build_folder_paths`: sort
everything by `(label.lower(), id)`, then suffix repeated path strings
with their occurrence ordinal. -/
def uniquify (ps : List (String × String)) : List (String × String) :=
  uniquifyLoop (pySorted pathLE ps) (fun _ => 0)

/-- Python `build_folder_paths`, over the already-fetched folder records: the
root-rooted traversal, then the orphan pass, then uniquification. -/
def build_folder_paths (raw : List FolderRec) : Option (List (String × String)) :=
  match addNode raw (raw.length + 2) ⟨[], []⟩ "root" [] with
  | none => none
  | some s =>
    match orphanPass raw s raw with
    | none => none
    | some s2 => some (uniquify s2.acc)

/-! ## Unfolding equations for the traversal -/

theorem addChildren_nil (raw : List FolderRec) (fuel : Nat) (pp : List String)
    (s : TravState) : addChildren raw fuel pp s [] = some s := rfl

theorem foldl_addNode_none (raw : List FolderRec) (fuel : Nat) (pp : List String)
    (cs : List String) :
    cs.foldl
      (fun a c =>
        match a with
        | none => none
        | some st => addNode raw fuel st c pp)
      none = none := by
  induction cs with
  | nil => rfl
  | cons c cs ih => simpa using ih

theorem addChildren_cons (raw : List FolderRec) (fuel : Nat) (pp : List String)
    (s : TravState) (c : String) (cs : List String) :
    addChildren raw fuel pp s (c :: cs) =
      match addNode raw fuel s c pp with
      | none => none
      | some s1 => addChildren raw fuel pp s1 cs := by
  cases h : addNode raw fuel s c pp with
  | none =>
    simp only [addChildren, List.foldl_cons, h]
    exact foldl_addNode_none raw fuel pp cs
  | some s1 => simp only [addChildren, List.foldl_cons, h]

theorem addNode_seen (raw : List FolderRec) (fuel : Nat) (s : TravState)
    (cid : String) (pp : List String) (h : cid ∈ s.seen) :
    addNode raw fuel s cid pp = some s := by
  unfold addNode
  rw [if_pos h]

theorem addNode_zero (raw : List FolderRec) (s : TravState) (cid : String)
    (pp : List String) (h : cid ∉ s.seen) :
    addNode raw 0 s cid pp = none := by
  unfold addNode
  rw [if_neg h]

theorem addNode_succ (raw : List FolderRec) (fuel : Nat) (s : TravState)
    (cid : String) (pp : List String) (h : cid ∉ s.seen) :
    addNode raw (fuel + 1) s cid pp =
      addChildren raw fuel (pp ++ [nodeName raw cid])
        ⟨cid :: s.seen, s.acc ++ [(joinPath pp (nodeName raw cid), cid)]⟩
        ((sortedChildren raw cid).map (fun f => f.id)) := by
  conv_lhs => unfold addNode
  rw [if_neg h]
  rfl

/-! ## The shape of a traversal step: what it adds to the state -/

/-- What any successful traversal call does to the state: it extends
`seen` with fresh, pairwise-distinct ids and appends exactly one
accumulator entry per fresh id, in visit order. -/
def Shape (s s' : TravState) : Prop :=
  ∃ newIds ents,
    s'.seen = newIds ++ s.seen ∧
    s'.acc = s.acc ++ ents ∧
    ents.map Prod.snd = newIds.reverse ∧
    newIds.Nodup ∧
    ∀ x ∈ newIds, x ∉ s.seen

theorem shape_refl (s : TravState) : Shape s s :=
  ⟨[], [], by simp, by simp, by simp, by simp, by simp⟩

theorem shape_trans {s t u : TravState} (h1 : Shape s t) (h2 : Shape t u) :
    Shape s u := by
  obtain ⟨n1, e1, hseen1, hacc1, hsnd1, hnd1, hfresh1⟩ := h1
  obtain ⟨n2, e2, hseen2, hacc2, hsnd2, hnd2, hfresh2⟩ := h2
  refine ⟨n2 ++ n1, e1 ++ e2, ?_, ?_, ?_, ?_, ?_⟩
  · rw [hseen2, hseen1, List.append_assoc]
  · rw [hacc2, hacc1, List.append_assoc]
  · simp [hsnd1, hsnd2]
  · rw [List.nodup_append]
    refine ⟨hnd2, hnd1, fun x hx2 hx1 => ?_⟩
    exact hfresh2 x hx2 (hseen1 ▸ List.mem_append_left _ hx1)
  · intro x hx
    rcases List.mem_append.mp hx with hx2 | hx1
    · intro hmem
      exact hfresh2 x hx2 (hseen1 ▸ List.mem_append_right _ hmem)
    · exact hfresh1 x hx1

theorem Shape.seen_subset {s s' : TravState} (h : Shape s s') :
    s.seen ⊆ s'.seen := by
  obtain ⟨n, e, hseen, -, -, -, -⟩ := h
  rw [hseen]
  exact List.subset_append_right _ _

theorem shape_step (s : TravState) (cid : String) (label : String)
    (h : cid ∉ s.seen) :
    Shape s ⟨cid :: s.seen, s.acc ++ [(label, cid)]⟩ :=
  ⟨[cid], [(label, cid)], by simp, by simp, by simp, by simp, by simp [h]⟩

theorem addChildren_shape (raw : List FolderRec) (fuel : Nat)
    (hN : ∀ s cid pp s', addNode raw fuel s cid pp = some s' → Shape s s') :
    ∀ (cs : List String) (pp : List String) (s s' : TravState),
      addChildren raw fuel pp s cs = some s' → Shape s s' := by
  intro cs
  induction cs with
  | nil =>
    intro pp s s' h
    rw [addChildren_nil] at h
    cases h
    exact shape_refl _
  | cons c cs ih =>
    intro pp s s' h
    rw [addChildren_cons] at h
    cases hn : addNode raw fuel s c pp with
    | none => rw [hn] at h; cases h
    | some s1 =>
      rw [hn] at h
      exact shape_trans (hN s c pp s1 hn) (ih pp s1 s' h)

theorem addNode_shape (raw : List FolderRec) :
    ∀ (fuel : Nat) (s : TravState) (cid : String) (pp : List String)
      (s' : TravState), addNode raw fuel s cid pp = some s' → Shape s s' := by
  intro fuel
  induction fuel with
  | zero =>
    intro s cid pp s' h
    by_cases hs : cid ∈ s.seen
    · rw [addNode_seen raw 0 s cid pp hs] at h
      cases h
      exact shape_refl _
    · rw [addNode_zero raw s cid pp hs] at h
      cases h
  | succ fuel ih =>
    intro s cid pp s' h
    by_cases hs : cid ∈ s.seen
    · rw [addNode_seen raw (fuel + 1) s cid pp hs] at h
      cases h
      exact shape_refl _
    · rw [addNode_succ raw fuel s cid pp hs] at h
      exact shape_trans (shape_step s cid _ hs)
        (addChildren_shape raw fuel ih _ _ _ _ h)

theorem pySorted_perm (le : α → α → Bool) (l : List α) : List.Perm (pySorted le l) l :=
  List.perm_insertionSort _ l

theorem mem_pySorted {le : α → α → Bool} {l : List α} {a : α} :
    a ∈ pySorted le l ↔ a ∈ l :=
  (pySorted_perm le l).mem_iff

theorem length_pySorted (le : α → α → Bool) (l : List α) :
    (pySorted le l).length = l.length :=
  (pySorted_perm le l).length_eq

theorem mem_get_children {raw : List FolderRec} {pid : String} {f : FolderRec} :
    f ∈ get_children raw pid ↔ f ∈ raw ∧ pid ∈ f.parents := by
  unfold get_children
  rw [List.mem_filter]
  constructor
  · rintro ⟨hf, hp⟩
    rw [Bool.and_eq_true] at hp
    exact ⟨hf, by simpa using hp.2⟩
  · rintro ⟨hf, hp⟩
    refine ⟨hf, ?_⟩
    rw [Bool.and_eq_true]
    refine ⟨?_, by simpa using hp⟩
    simp only [Bool.not_eq_true']
    rw [List.isEmpty_eq_false_iff_exists_mem]
    exact ⟨pid, hp⟩

theorem sortedChildren_id_mem {raw : List FolderRec} {pid c : String}
    (h : c ∈ (sortedChildren raw pid).map (fun f => f.id)) :
    c ∈ raw.map FolderRec.id := by
  obtain ⟨f, hf, rfl⟩ := List.mem_map.mp h
  rw [sortedChildren, mem_pySorted] at hf
  exact List.mem_map.mpr ⟨f, (mem_get_children.mp hf).1, rfl⟩

/-! ## Which ids a traversal can visit -/

theorem addChildren_univ (raw : List FolderRec) (fuel : Nat)
    (hN : ∀ s cid pp s', addNode raw fuel s cid pp = some s' →
      ∀ x ∈ s'.seen, x = cid ∨ x ∈ raw.map FolderRec.id ∨ x ∈ s.seen) :
    ∀ (cs : List String) (pp : List String) (s s' : TravState),
      addChildren raw fuel pp s cs = some s' →
      ∀ x ∈ s'.seen, x ∈ cs ∨ x ∈ raw.map FolderRec.id ∨ x ∈ s.seen := by
  intro cs
  induction cs with
  | nil =>
    intro pp s s' h x hx
    rw [addChildren_nil] at h
    cases h
    exact Or.inr (Or.inr hx)
  | cons c cs ih =>
    intro pp s s' h x hx
    rw [addChildren_cons] at h
    cases hn : addNode raw fuel s c pp with
    | none => rw [hn] at h; cases h
    | some s1 =>
      rw [hn] at h
      rcases ih pp s1 s' h x hx with hcs | hu | hs1
      · exact Or.inl (List.mem_cons_of_mem _ hcs)
      · exact Or.inr (Or.inl hu)
      · rcases hN s c pp s1 hn x hs1 with rfl | hu | hs
        · exact Or.inl (List.mem_cons_self _ _)
        · exact Or.inr (Or.inl hu)
        · exact Or.inr (Or.inr hs)

theorem addNode_univ (raw : List FolderRec) :
    ∀ (fuel : Nat) (s : TravState) (cid : String) (pp : List String)
      (s' : TravState), addNode raw fuel s cid pp = some s' →
      ∀ x ∈ s'.seen, x = cid ∨ x ∈ raw.map FolderRec.id ∨ x ∈ s.seen := by
  intro fuel
  induction fuel with
  | zero =>
    intro s cid pp s' h x hx
    by_cases hs : cid ∈ s.seen
    · rw [addNode_seen raw 0 s cid pp hs] at h; cases h
      exact Or.inr (Or.inr hx)
    · rw [addNode_zero raw s cid pp hs] at h; cases h
  | succ fuel ih =>
    intro s cid pp s' h x hx
    by_cases hs : cid ∈ s.seen
    · rw [addNode_seen raw (fuel + 1) s cid pp hs] at h; cases h
      exact Or.inr (Or.inr hx)
    · rw [addNode_succ raw fuel s cid pp hs] at h
      rcases addChildren_univ raw fuel ih _ _ _ _ h x hx with hcs | hu | hs1
      · exact Or.inr (Or.inl (sortedChildren_id_mem hcs))
      · exact Or.inr (Or.inl hu)
      · rcases List.mem_cons.mp hs1 with rfl | hsx
        · exact Or.inl rfl
        · exact Or.inr (Or.inr hsx)

/-! ## Closure: a visited node's children end up visited -/

theorem addChildren_closure (raw : List FolderRec) (fuel : Nat)
    (hN : ∀ s cid pp s', addNode raw fuel s cid pp = some s' →
      (∀ x ∈ s'.seen, x ∉ s.seen → ∀ c ∈ get_children raw x, c.id ∈ s'.seen) ∧
        cid ∈ s'.seen) :
    ∀ (cs : List String) (pp : List String) (s s' : TravState),
      addChildren raw fuel pp s cs = some s' →
      (∀ x ∈ s'.seen, x ∉ s.seen → ∀ c ∈ get_children raw x, c.id ∈ s'.seen) ∧
        ∀ c ∈ cs, c ∈ s'.seen := by
  intro cs
  induction cs with
  | nil =>
    intro pp s s' h
    rw [addChildren_nil] at h
    cases h
    exact ⟨fun x hx hnx => absurd hx hnx, fun c hc => absurd hc (List.not_mem_nil _)⟩
  | cons c cs ih =>
    intro pp s s' h
    rw [addChildren_cons] at h
    cases hn : addNode raw fuel s c pp with
    | none => rw [hn] at h; cases h
    | some s1 =>
      rw [hn] at h
      obtain ⟨clos1, hc1⟩ := hN s c pp s1 hn
      obtain ⟨clos2, hcs2⟩ := ih pp s1 s' h
      have mono2 : s1.seen ⊆ s'.seen :=
        (addChildren_shape raw fuel (addNode_shape raw fuel) cs pp s1 s' h).seen_subset
      refine ⟨fun x hx hnx => ?_, fun d hd => ?_⟩
      · by_cases hx1 : x ∈ s1.seen
        · intro ch hch
          exact mono2 (clos1 x hx1 hnx ch hch)
        · exact clos2 x hx hx1
      · rcases List.mem_cons.mp hd with rfl | hdc
        · exact mono2 hc1
        · exact hcs2 d hdc

theorem addNode_closure (raw : List FolderRec) :
    ∀ (fuel : Nat) (s : TravState) (cid : String) (pp : List String)
      (s' : TravState), addNode raw fuel s cid pp = some s' →
      (∀ x ∈ s'.seen, x ∉ s.seen → ∀ c ∈ get_children raw x, c.id ∈ s'.seen) ∧
        cid ∈ s'.seen := by
  intro fuel
  induction fuel with
  | zero =>
    intro s cid pp s' h
    by_cases hs : cid ∈ s.seen
    · rw [addNode_seen raw 0 s cid pp hs] at h; cases h
      exact ⟨fun x hx hnx => absurd hx hnx, hs⟩
    · rw [addNode_zero raw s cid pp hs] at h; cases h
  | succ fuel ih =>
    intro s cid pp s' h
    by_cases hs : cid ∈ s.seen
    · rw [addNode_seen raw (fuel + 1) s cid pp hs] at h; cases h
      exact ⟨fun x hx hnx => absurd hx hnx, hs⟩
    · rw [addNode_succ raw fuel s cid pp hs] at h
      obtain ⟨closA, hall⟩ := addChildren_closure raw fuel ih _ _ _ _ h
      have mono : (⟨cid :: s.seen,
          s.acc ++ [(joinPath pp (nodeName raw cid), cid)]⟩ : TravState).seen ⊆ s'.seen :=
        (addChildren_shape raw fuel (addNode_shape raw fuel) _ _ _ _ h).seen_subset
      refine ⟨fun x hx hnx => ?_, mono (List.mem_cons_self _ _)⟩
      by_cases hxc : x = cid
      · subst hxc
        intro ch hch
        refine hall ch.id (List.mem_map.mpr ⟨ch, ?_, rfl⟩)
        rw [sortedChildren, mem_pySorted]
        exact hch
      · refine closA x hx ?_
        simp only [List.mem_cons, not_or]
        exact ⟨hxc, hnx⟩

/-! ## Fuel sufficiency: the traversal never runs out of fuel -/

/-- All ids a traversal can ever visit: the virtual root and the ids of
the fetched records. -/
def univList (raw : List FolderRec) : List String :=
  "root" :: raw.map FolderRec.id

/-- How many visitable ids are not yet seen; strictly decreases at
every fresh visit. -/
def badness (raw : List FolderRec) (s : TravState) : Nat :=
  (univList raw).countP (fun x => decide (x ∉ s.seen))

theorem countP_lt_of_mem {p q : α → Bool} {l : List α} {a : α}
    (hmem : a ∈ l) (hq : q a = false) (hp : p a = true)
    (him : ∀ x, q x = true → p x = true) :
    l.countP q < l.countP p := by
  induction l with
  | nil => cases hmem
  | cons x xs ih =>
    rw [List.countP_cons, List.countP_cons]
    have hmono : xs.countP q ≤ xs.countP p :=
      List.countP_mono_left (fun y _ hy => him y hy)
    rcases List.mem_cons.mp hmem with rfl | hxs
    · rw [if_neg (by simp [hq]), if_pos hp]
      omega
    · have hlt := ih hxs
      by_cases hqx : q x = true
      · rw [if_pos hqx, if_pos (him x hqx)]
        omega
      · rw [if_neg hqx]
        by_cases hpx : p x = true
        · rw [if_pos hpx]; omega
        · rw [if_neg hpx]; omega

theorem badness_mono {raw : List FolderRec} {s t : TravState}
    (h : s.seen ⊆ t.seen) : badness raw t ≤ badness raw s := by
  apply List.countP_mono_left
  intro x _ hx
  simp only [decide_eq_true_eq] at hx ⊢
  exact fun hmem => hx (h hmem)

theorem badness_strict {raw : List FolderRec} {s : TravState} {cid : String}
    (hu : cid ∈ univList raw) (hs : cid ∉ s.seen) (acc : List (String × String)) :
    badness raw ⟨cid :: s.seen, acc⟩ < badness raw s := by
  apply countP_lt_of_mem hu
  · simp
  · simp [hs]
  · intro x hx
    simp only [decide_eq_true_eq] at hx ⊢
    intro hmem
    exact hx (List.mem_cons_of_mem _ hmem)

theorem badness_le (raw : List FolderRec) (s : TravState) :
    badness raw s ≤ raw.length + 1 := by
  unfold badness
  refine le_trans (List.countP_le_length _) ?_
  simp [univList]

theorem addChildren_isSome (raw : List FolderRec) (fuel : Nat)
    (hN : ∀ s cid pp, cid ∈ univList raw → badness raw s < fuel →
      (addNode raw fuel s cid pp).isSome) :
    ∀ (cs : List String) (pp : List String) (s : TravState),
      (∀ c ∈ cs, c ∈ univList raw) → badness raw s < fuel →
      (addChildren raw fuel pp s cs).isSome := by
  intro cs
  induction cs with
  | nil => intro pp s _ _; rw [addChildren_nil]; rfl
  | cons c cs ih =>
    intro pp s hcs hb
    have h1 : (addNode raw fuel s c pp).isSome :=
      hN s c pp (hcs c (List.mem_cons_self _ _)) hb
    obtain ⟨s1, hs1⟩ := Option.isSome_iff_exists.mp h1
    rw [addChildren_cons, hs1]
    have hb1 : badness raw s1 ≤ badness raw s :=
      badness_mono (addNode_shape raw fuel s c pp s1 hs1).seen_subset
    exact ih pp s1 (fun d hd => hcs d (List.mem_cons_of_mem _ hd)) (by omega)

theorem addNode_isSome (raw : List FolderRec) :
    ∀ (fuel : Nat) (s : TravState) (cid : String) (pp : List String),
      cid ∈ univList raw → badness raw s < fuel →
      (addNode raw fuel s cid pp).isSome := by
  intro fuel
  induction fuel with
  | zero => intro s cid pp _ hb; omega
  | succ fuel ih =>
    intro s cid pp hu hb
    by_cases hs : cid ∈ s.seen
    · rw [addNode_seen raw (fuel + 1) s cid pp hs]; rfl
    · rw [addNode_succ raw fuel s cid pp hs]
      apply addChildren_isSome raw fuel ih
      · intro c hc
        exact List.mem_cons_of_mem _ (sortedChildren_id_mem hc)
      · have := badness_strict hu hs
          (s.acc ++ [(joinPath pp (nodeName raw cid), cid)])
        omega

/-! ## The orphan pass -/

theorem orphanStep_shape (raw : List FolderRec) (s : TravState) (f : FolderRec)
    (s' : TravState) (h : orphanStep raw s f = some s') : Shape s s' := by
  unfold orphanStep at h
  by_cases hs : f.id ∈ s.seen
  · rw [if_pos hs] at h; cases h; exact shape_refl _
  · rw [if_neg hs] at h
    by_cases ho : (match f.parents with
      | [] => true
      | p :: _ => !inIdToFolder raw p) = true
    · rw [if_pos ho] at h
      exact shape_trans (shape_step s f.id _ hs)
        (addChildren_shape raw (raw.length + 2)
          (addNode_shape raw (raw.length + 2)) _ _ _ _ h)
    · rw [if_neg ho] at h; cases h; exact shape_refl _

theorem orphanStep_isSome (raw : List FolderRec) (s : TravState) (f : FolderRec) :
    (orphanStep raw s f).isSome := by
  unfold orphanStep
  by_cases hs : f.id ∈ s.seen
  · rw [if_pos hs]; rfl
  · rw [if_neg hs]
    by_cases ho : (match f.parents with
      | [] => true
      | p :: _ => !inIdToFolder raw p) = true
    · rw [if_pos ho]
      apply addChildren_isSome raw (raw.length + 2)
        (addNode_isSome raw (raw.length + 2))
      · intro c hc
        obtain ⟨g, hg, rfl⟩ := List.mem_map.mp hc
        exact List.mem_cons_of_mem _
          (List.mem_map.mpr ⟨g, (mem_get_children.mp hg).1, rfl⟩)
      · have := badness_le raw
          ⟨f.id :: s.seen, s.acc ++ [("My Drive (root) / " ++ f.name, f.id)]⟩
        omega
    · rw [if_neg ho]; rfl

theorem orphanPass_shape (raw : List FolderRec) :
    ∀ (fs : List FolderRec) (s s' : TravState),
      orphanPass raw s fs = some s' → Shape s s' := by
  intro fs
  induction fs with
  | nil => intro s s' h; cases h; exact shape_refl _
  | cons f fs ih =>
    intro s s' h
    unfold orphanPass at h
    cases ho : orphanStep raw s f with
    | none => rw [ho] at h; cases h
    | some s1 =>
      rw [ho] at h
      exact shape_trans (orphanStep_shape raw s f s1 ho) (ih s1 s' h)

theorem orphanPass_isSome (raw : List FolderRec) :
    ∀ (fs : List FolderRec) (s : TravState), (orphanPass raw s fs).isSome := by
  intro fs
  induction fs with
  | nil => intro s; rfl
  | cons f fs ih =>
    intro s
    obtain ⟨s1, hs1⟩ := Option.isSome_iff_exists.mp (orphanStep_isSome raw s f)
    unfold orphanPass
    rw [hs1]
    exact ih s1

theorem orphanPass_skip (raw : List FolderRec) :
    ∀ (fs : List FolderRec) (s : TravState),
      (∀ f ∈ fs, f.id ∈ s.seen) → orphanPass raw s fs = some s := by
  intro fs
  induction fs with
  | nil => intro s _; rfl
  | cons f fs ih =>
    intro s hall
    unfold orphanPass
    have hstep : orphanStep raw s f = some s := by
      unfold orphanStep
      rw [if_pos (hall f (List.mem_cons_self _ _))]
    rw [hstep]
    exact ih s (fun g hg => hall g (List.mem_cons_of_mem _ hg))

/-! ## The accumulator/seen invariant -/

/-- The accumulator records exactly the seen ids, in visit order. -/
def Inv (s : TravState) : Prop :=
  s.acc.map Prod.snd = s.seen.reverse ∧ s.seen.Nodup

theorem Inv.ofShape {s s' : TravState} (h : Shape s s') (hi : Inv s) : Inv s' := by
  obtain ⟨n, e, hseen, hacc, hsnd, hnd, hfresh⟩ := h
  constructor
  · rw [hacc, List.map_append, hsnd, hi.1, hseen, List.reverse_append]
  · rw [hseen, List.nodup_append]
    exact ⟨hnd, hi.2, fun x hx1 hx2 => hfresh x hx1 hx2⟩

/-! ## Uniquify preserves the ids and the length -/

theorem uniquifyLoop_map_snd :
    ∀ (l : List (String × String)) (cnt : String → Nat),
      (uniquifyLoop l cnt).map Prod.snd = l.map Prod.snd := by
  intro l
  induction l with
  | nil => intro cnt; rfl
  | cons hd rest ih =>
    intro cnt
    obtain ⟨path, fid⟩ := hd
    simp [uniquifyLoop, ih]

theorem uniquify_length (ps : List (String × String)) :
    (uniquify ps).length = ps.length := by
  unfold uniquify
  have h2 := congrArg List.length
    (uniquifyLoop_map_snd (pySorted pathLE ps) (fun _ => 0))
  simp only [List.length_map] at h2
  rw [h2, length_pySorted]

theorem uniquify_snd_perm (ps : List (String × String)) :
    List.Perm ((uniquify ps).map Prod.snd) (ps.map Prod.snd) := by
  unfold uniquify
  rw [uniquifyLoop_map_snd]
  exact (pySorted_perm pathLE ps).map Prod.snd

/-! ## Claim theorems for the tree builder's termination and counting -/

/-- C6: for every folder record set — so in particular for any set whose
parent references contain a cycle — `build_folder_paths` terminates:
the fuel `raw.length + 2` supplied to the visited-set recursion never
runs out, the result is `some`, and no folder id (cyclic or not)
appears more than once in the output. -/
theorem C6_cycle_terminates_no_dup (raw : List FolderRec) :
    ∃ out, build_folder_paths raw = some out ∧ (out.map Prod.snd).Nodup := by
  have hb : badness raw ⟨[], []⟩ < raw.length + 2 :=
    lt_of_le_of_lt (badness_le raw _) (by omega)
  obtain ⟨s0, hs0⟩ := Option.isSome_iff_exists.mp
    (addNode_isSome raw (raw.length + 2) ⟨[], []⟩ "root" []
      (List.mem_cons_self _ _) hb)
  obtain ⟨s2, hs2⟩ := Option.isSome_iff_exists.mp (orphanPass_isSome raw raw s0)
  have hinv0 : Inv s0 :=
    Inv.ofShape (addNode_shape raw _ _ _ _ _ hs0) ⟨rfl, List.nodup_nil⟩
  have hinv2 : Inv s2 := Inv.ofShape (orphanPass_shape raw raw s0 s2 hs2) hinv0
  refine ⟨uniquify s2.acc, ?_, ?_⟩
  · unfold build_folder_paths
    simp only [hs0, hs2]
  · have hnd : (s2.acc.map Prod.snd).Nodup := by
      rw [hinv2.1]
      exact List.nodup_reverse.mpr hinv2.2
    exact ((uniquify_snd_perm s2.acc).symm).nodup hnd

/-- C4: when ids are unique, `"root"` is not among them, every record
has a first parent that is the root or another record of the set (no
true orphans), and the parent graph is acyclic (witnessed by a rank
function decreasing along first-parent edges), the traversal emits
each record exactly once: the output has `raw.length + 1` entries, the
`+ 1` being the synthetic root. -/
theorem C4_each_record_once (raw : List FolderRec)
    (hnodup : (raw.map FolderRec.id).Nodup)
    (hroot : "root" ∉ raw.map FolderRec.id)
    (rank : String → Nat)
    (hparent : ∀ f ∈ raw, f.parents ≠ [] ∧
      (f.parents.headI = "root" ∨ f.parents.headI ∈ raw.map FolderRec.id))
    (hrank : ∀ f ∈ raw, ∀ g ∈ raw, f.parents.head? = some g.id →
      rank g.id < rank f.id) :
    ∃ out, build_folder_paths raw = some out ∧ out.length = raw.length + 1 := by
  have hb : badness raw ⟨[], []⟩ < raw.length + 2 :=
    lt_of_le_of_lt (badness_le raw _) (by omega)
  obtain ⟨s0, hs0⟩ := Option.isSome_iff_exists.mp
    (addNode_isSome raw (raw.length + 2) ⟨[], []⟩ "root" []
      (List.mem_cons_self _ _) hb)
  have hclos := addNode_closure raw (raw.length + 2) ⟨[], []⟩ "root" [] s0 hs0
  have clos' : ∀ x ∈ s0.seen, ∀ c ∈ get_children raw x, c.id ∈ s0.seen :=
    fun x hx => hclos.1 x hx (List.not_mem_nil x)
  have hrootseen : "root" ∈ s0.seen := hclos.2
  have reach : ∀ n : Nat, ∀ f ∈ raw, rank f.id < n → f.id ∈ s0.seen := by
    intro n
    induction n with
    | zero => intro f _ h; omega
    | succ n ihn =>
      intro f hf hlt
      obtain ⟨hne, hp⟩ := hparent f hf
      obtain ⟨p, ps, hpar⟩ := List.exists_cons_of_ne_nil hne
      have hheadI : f.parents.headI = p := by rw [hpar]; rfl
      have hchild : f ∈ get_children raw p := by
        rw [mem_get_children]
        exact ⟨hf, by rw [hpar]; exact List.mem_cons_self _ _⟩
      rcases hp with hproot | hpid
      · have hpr : p = "root" := by rw [hheadI] at hproot; exact hproot
        exact clos' "root" hrootseen f (hpr ▸ hchild)
      · rw [hheadI] at hpid
        obtain ⟨g, hg, hgid⟩ := List.mem_map.mp hpid
        have hr : rank g.id < rank f.id := by
          apply hrank f hf g hg
          rw [hpar, hgid]
          rfl
        have hgseen : g.id ∈ s0.seen := ihn g hg (by omega)
        exact clos' g.id hgseen f (by rw [hgid]; exact hchild)
  have reach' : ∀ f ∈ raw, f.id ∈ s0.seen :=
    fun f hf => reach (rank f.id + 1) f hf (by omega)
  have hinv0 : Inv s0 :=
    Inv.ofShape (addNode_shape raw _ _ _ _ _ hs0) ⟨rfl, List.nodup_nil⟩
  have hsub : s0.seen ⊆ univList raw := by
    intro x hx
    rcases addNode_univ raw (raw.length + 2) ⟨[], []⟩ "root" [] s0 hs0 x hx with
      rfl | hu | hniz
    · exact List.mem_cons_self _ _
    · exact List.mem_cons_of_mem _ hu
    · exact absurd hniz (List.not_mem_nil x)
  have hsup : univList raw ⊆ s0.seen := by
    intro x hx
    rcases List.mem_cons.mp hx with rfl | hid
    · exact hrootseen
    · obtain ⟨f, hf, rfl⟩ := List.mem_map.mp hid
      exact reach' f hf
  have hundup : (univList raw).Nodup := by
    rw [univList, List.nodup_cons]
    exact ⟨hroot, hnodup⟩
  have hlen1 : s0.seen.length ≤ (univList raw).length :=
    (List.subperm_of_subset hinv0.2 hsub).length_le
  have hlen2 : (univList raw).length ≤ s0.seen.length :=
    (List.subperm_of_subset hundup hsup).length_le
  have hulen : (univList raw).length = raw.length + 1 := by simp [univList]
  have hacclen : s0.acc.length = raw.length + 1 := by
    have h := congrArg List.length hinv0.1
    simp only [List.length_map, List.length_reverse] at h
    omega
  have hpass : orphanPass raw s0 raw = some s0 :=
    orphanPass_skip raw raw s0 (fun f hf => reach' f hf)
  refine ⟨uniquify s0.acc, ?_, ?_⟩
  · unfold build_folder_paths
    simp only [hs0, hpass]
  · rw [uniquify_length]
    exact hacclen

theorem C4_each_record_once_witness :
    ∃ out,
      build_folder_paths [⟨"a", "A", ["root"]⟩, ⟨"b", "B", ["a"]⟩] = some out ∧
      out.length = ([⟨"a", "A", ["root"]⟩, ⟨"b", "B", ["a"]⟩] :
        List FolderRec).length + 1 :=
  C4_each_record_once _ (by decide) (by decide)
    (fun s => if s = "b" then 2 else if s = "a" then 1 else 0)
    (by decide) (by decide)

/-! ## Decimal rendering is injective

`suffixLabel` uses `Nat.repr`; to separate the labels of distinct
occurrences we prove `Nat.repr` injective via a clean recursive digit
list and a decoder. -/

/-- The decimal digit characters of `n`, most significant first. -/
def cleanDigits (n : Nat) : List Char :=
  if _h : n < 10 then [Nat.digitChar n]
  else cleanDigits (n / 10) ++ [Nat.digitChar (n % 10)]
decreasing_by exact Nat.div_lt_self (by omega) (by omega)

theorem cleanDigits_lt {n : Nat} (h : n < 10) :
    cleanDigits n = [Nat.digitChar n] := by
  rw [cleanDigits]
  exact dif_pos h

theorem cleanDigits_ge {n : Nat} (h : ¬ n < 10) :
    cleanDigits n = cleanDigits (n / 10) ++ [Nat.digitChar (n % 10)] := by
  conv_lhs => rw [cleanDigits]
  exact dif_neg h

theorem toDigitsCore_eq_cleanDigits :
    ∀ (fuel n : Nat) (ds : List Char), n < fuel →
      Nat.toDigitsCore 10 fuel n ds = cleanDigits n ++ ds := by
  intro fuel
  induction fuel with
  | zero => intro n ds h; omega
  | succ fuel ih =>
    intro n ds h
    simp only [Nat.toDigitsCore]
    by_cases h10 : n / 10 = 0
    · rw [if_pos h10]
      have hn10 : n < 10 := by omega
      rw [cleanDigits_lt hn10, Nat.mod_eq_of_lt hn10]
      rfl
    · rw [if_neg h10]
      have hge : ¬ n < 10 := fun hc => h10 (Nat.div_eq_of_lt hc)
      have hdivlt : n / 10 < n := Nat.div_lt_self (by omega) (by omega)
      rw [ih (n / 10) (Nat.digitChar (n % 10) :: ds) (by omega)]
      rw [cleanDigits_ge hge, List.append_assoc]
      rfl

theorem repr_eq_cleanDigits (n : Nat) :
    Nat.repr n = (cleanDigits n).asString := by
  rw [Nat.repr, Nat.toDigits,
    toDigitsCore_eq_cleanDigits (n + 1) n [] (Nat.lt_succ_self n),
    List.append_nil]

/-- Decode a digit list back to the number. -/
def decodeDigits (l : List Char) : Nat :=
  l.foldl (fun a c => a * 10 + (c.toNat - 48)) 0

theorem digitChar_decode : ∀ m < 10, (Nat.digitChar m).toNat - 48 = m := by decide

theorem decode_cleanDigits : ∀ n : Nat, decodeDigits (cleanDigits n) = n := by
  intro n
  induction n using Nat.strong_induction_on with
  | _ n ih =>
    by_cases h : n < 10
    · rw [cleanDigits_lt h]
      simp [decodeDigits, digitChar_decode n h]
    · rw [cleanDigits_ge h]
      unfold decodeDigits
      rw [List.foldl_append]
      simp only [List.foldl_cons, List.foldl_nil]
      have ihv := ih (n / 10) (Nat.div_lt_self (by omega) (by omega))
      unfold decodeDigits at ihv
      rw [ihv, digitChar_decode (n % 10) (Nat.mod_lt n (by omega))]
      omega

theorem repr_inj {a b : Nat} (h : Nat.repr a = Nat.repr b) : a = b := by
  rw [repr_eq_cleanDigits, repr_eq_cleanDigits] at h
  have hdata : cleanDigits a = cleanDigits b := by
    have h2 := congrArg String.data h
    simpa [List.asString] using h2
  have ha := decode_cleanDigits a
  rw [hdata, decode_cleanDigits b] at ha
  omega

/-- Distinct ordinals (the smaller at least 1) give distinct labels for
the same path. -/
theorem suffixLabel_ne {p : String} {a b : Nat} (ha : 1 ≤ a) (hab : a < b) :
    suffixLabel p a ≠ suffixLabel p b := by
  unfold suffixLabel
  rw [if_neg (by omega : ¬ b = 1)]
  by_cases ha1 : a = 1
  · rw [if_pos ha1]
    intro hcontra
    have h2 := congrArg String.data hcontra
    simp only [String.data_append] at h2
    have h3 := congrArg List.length h2
    simp at h3
  · rw [if_neg ha1]
    intro hcontra
    have h2 := congrArg String.data hcontra
    simp only [String.data_append, List.append_assoc] at h2
    have h3 := List.append_cancel_left h2
    have h4 := List.append_cancel_left h3
    have h5 : (Nat.repr a).data = (Nat.repr b).data :=
      List.append_cancel_right h4
    have h6 : Nat.repr a = Nat.repr b := congrArg String.mk h5
    have := repr_inj h6
    omega

/-! ## The uniquify loop: positional characterization -/

theorem uniquifyLoop_length :
    ∀ (l : List (String × String)) (cnt : String → Nat),
      (uniquifyLoop l cnt).length = l.length := by
  intro l cnt
  have h := congrArg List.length (uniquifyLoop_map_snd l cnt)
  simpa using h

theorem uniquifyLoop_get :
    ∀ (l : List (String × String)) (cnt : String → Nat) (i : Nat)
      (h : i < l.length),
      (uniquifyLoop l cnt).get ⟨i, by rw [uniquifyLoop_length]; exact h⟩ =
        (suffixLabel (l.get ⟨i, h⟩).1
          (cnt (l.get ⟨i, h⟩).1 + 1 +
            (l.take i).countP (fun q => decide (q.1 = (l.get ⟨i, h⟩).1))),
         (l.get ⟨i, h⟩).2) := by
  intro l
  induction l with
  | nil => intro cnt i h; cases h
  | cons hd rest ih =>
    intro cnt i h
    obtain ⟨path, fid⟩ := hd
    cases i with
    | zero =>
      simp [uniquifyLoop]
    | succ j =>
      have hj : j < rest.length := by simpa using h
      have lhs :
          (uniquifyLoop ((path, fid) :: rest) cnt).get
              ⟨j + 1, by rw [uniquifyLoop_length]; exact h⟩ =
            (uniquifyLoop rest
                (fun p => if p = path then cnt path + 1 else cnt p)).get
              ⟨j, by rw [uniquifyLoop_length]; exact hj⟩ := by
        simp [uniquifyLoop]
      rw [lhs, ih _ j hj]
      have hget : (((path, fid) :: rest).get ⟨j + 1, h⟩) = rest.get ⟨j, hj⟩ := rfl
      rw [hget]
      have htake : (((path, fid) :: rest).take (j + 1)) =
          (path, fid) :: rest.take j := rfl
      rw [htake, List.countP_cons]
      by_cases hpp : (rest.get ⟨j, hj⟩).1 = path
      · rw [hpp]
        have h1 : cnt path + 1 + 1 +
              (rest.take j).countP (fun q => decide (q.1 = path)) =
            cnt path + 1 +
              ((rest.take j).countP (fun q => decide (q.1 = path)) + 1) := by
          omega
        simp [h1]
      · rw [if_neg hpp]
        simp only [List.get_eq_getElem] at hpp
        simp [Ne.symm hpp]

theorem countP_take_lt {l : List (String × String)} {i j : Nat}
    (hi : i < l.length) (hij : i < j) (p : String)
    (hip : (l.get ⟨i, hi⟩).1 = p) :
    (l.take i).countP (fun q => decide (q.1 = p)) <
      (l.take j).countP (fun q => decide (q.1 = p)) := by
  simp only [List.get_eq_getElem] at hip
  have h1 : (l.take (i + 1)).countP (fun q => decide (q.1 = p)) =
      (l.take i).countP (fun q => decide (q.1 = p)) + 1 := by
    rw [List.take_succ, List.countP_append, List.getElem?_eq_getElem hi]
    simp [hip]
  have heq : l.take (i + 1) = (l.take j).take (i + 1) := by
    rw [List.take_take, min_eq_left (by omega : i + 1 ≤ j)]
  have h2 : (l.take (i + 1)).countP (fun q => decide (q.1 = p)) ≤
      (l.take j).countP (fun q => decide (q.1 = p)) := by
    rw [heq]
    exact List.Sublist.countP_le _ (List.take_sublist _ _)
  omega

theorem uniquify_get (ps : List (String × String)) (k : Nat)
    (hk : k < (pySorted pathLE ps).length) :
    (uniquify ps).get
        ⟨k, by have := length_pySorted pathLE ps; rw [uniquify_length]; omega⟩ =
      (suffixLabel ((pySorted pathLE ps).get ⟨k, hk⟩).1
        (((pySorted pathLE ps).take k).countP
          (fun q => decide (q.1 = ((pySorted pathLE ps).get ⟨k, hk⟩).1)) + 1),
       ((pySorted pathLE ps).get ⟨k, hk⟩).2) := by
  have h := uniquifyLoop_get (pySorted pathLE ps) (fun _ => 0) k hk
  refine h.trans ?_
  have harith :
      (fun (_ : String) => 0) ((pySorted pathLE ps).get ⟨k, hk⟩).1 + 1 +
        ((pySorted pathLE ps).take k).countP
          (fun q => decide (q.1 = ((pySorted pathLE ps).get ⟨k, hk⟩).1)) =
      ((pySorted pathLE ps).take k).countP
        (fun q => decide (q.1 = ((pySorted pathLE ps).get ⟨k, hk⟩).1)) + 1 := by
    show 0 + 1 + _ = _ + 1
    omega
  rw [harith]

/-- C5 counterexample: the claim asserts the labels of the produced
catalog are pairwise distinct and that duplicates get the suffix
`" (2)"`; on this record set (two folders named "B" and one folder
literally named "B  (2)") the code produces the label
"My Drive (root) / B  (2)" twice — the suffix (two spaces in the
source) collides with a folder's real name — so the labels of one
catalog are not pairwise distinct. -/
theorem C5_counterexample :
    build_folder_paths
        [⟨"a", "B", ["root"]⟩, ⟨"b", "B", ["root"]⟩, ⟨"c", "B  (2)", ["root"]⟩] =
      some [("My Drive (root)", "root"), ("My Drive (root) / B", "a"),
        ("My Drive (root) / B  (2)", "b"), ("My Drive (root) / B  (2)", "c")]
    ∧ ¬ (([("My Drive (root)", "root"), ("My Drive (root) / B", "a"),
        ("My Drive (root) / B  (2)", "b"),
        ("My Drive (root) / B  (2)", "c")].map Prod.fst).Nodup) := by
  constructor
  · decide
  · decide

/-- C5 amended: after the final deterministic sort keyed by
`(label lowercased, folder id)`, the `k`-th entry of the uniquified
catalog carries the label `suffixLabel path occ` — the path itself for
the first occurrence, `path ++ "  (" ++ occ ++ ")"` (two spaces, as in
the source) for later occurrences — where `occ` counts equal path
strings among the earlier sorted entries; the assignment is a pure
function of the input, hence deterministic across runs, and entries
sharing one path string receive pairwise distinct labels (global
distinctness may fail only when a path string collides with another's
suffixed label, as the counterexample shows). -/
theorem C5_label_scheme (ps : List (String × String)) :
    (∀ (k : Nat) (hk : k < (pySorted pathLE ps).length),
        (uniquify ps).get
            ⟨k, by have := length_pySorted pathLE ps; rw [uniquify_length]; omega⟩ =
          (suffixLabel ((pySorted pathLE ps).get ⟨k, hk⟩).1
            (((pySorted pathLE ps).take k).countP
              (fun q => decide (q.1 = ((pySorted pathLE ps).get ⟨k, hk⟩).1)) + 1),
           ((pySorted pathLE ps).get ⟨k, hk⟩).2))
    ∧ (∀ (i j : Nat) (hi : i < (pySorted pathLE ps).length)
        (hj : j < (pySorted pathLE ps).length), i < j →
        ((pySorted pathLE ps).get ⟨i, hi⟩).1 =
          ((pySorted pathLE ps).get ⟨j, hj⟩).1 →
        ((uniquify ps).get
            ⟨i, by have := length_pySorted pathLE ps; rw [uniquify_length]; omega⟩).1 ≠
          ((uniquify ps).get
            ⟨j, by have := length_pySorted pathLE ps; rw [uniquify_length]; omega⟩).1) := by
  refine ⟨fun k hk => uniquify_get ps k hk, ?_⟩
  intro i j hi hj hij hsame
  rw [uniquify_get ps i hi, uniquify_get ps j hj]
  simp only
  rw [← hsame]
  apply suffixLabel_ne (by omega)
  have hcount := countP_take_lt hi hij ((pySorted pathLE ps).get ⟨i, hi⟩).1 rfl
  omega

theorem C5_label_scheme_witness :
    ((uniquify [("A", "1"), ("A", "2")]).get ⟨0, by decide⟩).1 ≠
      ((uniquify [("A", "1"), ("A", "2")]).get ⟨1, by decide⟩).1 :=
  (C5_label_scheme [("A", "1"), ("A", "2")]).2 0 1 (by decide) (by decide)
    (by decide) (by decide)

/-! ## The child ordering is a total preorder -/

theorem charToNat_inj {a b : Char} (h : a.toNat = b.toNat) : a = b := by
  have h2 := congrArg Char.ofNat h
  rwa [Char.ofNat_toNat, Char.ofNat_toNat] at h2

theorem charListLt_trans :
    ∀ (a b c : List Char), charListLt a b = true → charListLt b c = true →
      charListLt a c = true := by
  intro a
  induction a with
  | nil =>
    intro b c hab hbc
    cases b with
    | nil => simp [charListLt] at hab
    | cons y ys =>
      cases c with
      | nil => simp [charListLt] at hbc
      | cons z zs => simp [charListLt]
  | cons x xs ih =>
    intro b c hab hbc
    cases b with
    | nil => simp [charListLt] at hab
    | cons y ys =>
      cases c with
      | nil => simp [charListLt] at hbc
      | cons z zs =>
        simp only [charListLt] at hab hbc ⊢
        by_cases hxy : x.toNat < y.toNat
        · by_cases hyz : y.toNat < z.toNat
          · rw [if_pos (by omega)]
          · by_cases hzy : z.toNat < y.toNat
            · rw [if_neg hyz, if_pos hzy] at hbc
              exact absurd hbc (by simp)
            · rw [if_pos (by omega)]
        · by_cases hyx : y.toNat < x.toNat
          · rw [if_neg hxy, if_pos hyx] at hab
            exact absurd hab (by simp)
          · rw [if_neg hxy, if_neg hyx] at hab
            by_cases hyz : y.toNat < z.toNat
            · rw [if_pos (by omega)]
            · by_cases hzy : z.toNat < y.toNat
              · rw [if_neg hyz, if_pos hzy] at hbc
                exact absurd hbc (by simp)
              · rw [if_neg hyz, if_neg hzy] at hbc
                rw [if_neg (by omega), if_neg (by omega)]
                exact ih ys zs hab hbc

theorem charListLt_eq_of_not :
    ∀ (a b : List Char), charListLt a b = false → charListLt b a = false →
      a = b := by
  intro a
  induction a with
  | nil =>
    intro b hab _
    cases b with
    | nil => rfl
    | cons y ys => simp [charListLt] at hab
  | cons x xs ih =>
    intro b hab hba
    cases b with
    | nil => simp [charListLt] at hba
    | cons y ys =>
      simp only [charListLt] at hab hba
      by_cases hxy : x.toNat < y.toNat
      · rw [if_pos hxy] at hab
        exact absurd hab (by simp)
      · by_cases hyx : y.toNat < x.toNat
        · rw [if_pos hyx] at hba
          exact absurd hba (by simp)
        · rw [if_neg hxy, if_neg hyx] at hab
          rw [if_neg hyx, if_neg hxy] at hba
          have hx : x = y := charToNat_inj (by omega)
          have hxs : xs = ys := ih ys hab hba
          rw [hx, hxs]

theorem str_eq_of_not_lt {a b : String} (hab : strLt a b = false)
    (hba : strLt b a = false) : a = b := by
  have h := charListLt_eq_of_not a.data b.data hab hba
  exact congrArg String.mk h

theorem strLe_trans {a b c : String} (hab : strLe a b = true)
    (hbc : strLe b c = true) : strLe a c = true := by
  unfold strLe at hab hbc ⊢
  rw [Bool.or_eq_true] at hab hbc ⊢
  rcases hab with hab | hab
  · rcases hbc with hbc | hbc
    · exact Or.inl (charListLt_trans _ _ _ hab hbc)
    · rw [eq_of_beq hbc] at hab
      exact Or.inl hab
  · rw [eq_of_beq hab]
    exact hbc

theorem strLe_total (a b : String) : strLe a b = true ∨ strLe b a = true := by
  unfold strLe
  rw [Bool.or_eq_true, Bool.or_eq_true]
  by_cases hab : strLt a b = true
  · exact Or.inl (Or.inl hab)
  · by_cases hba : strLt b a = true
    · exact Or.inr (Or.inl hba)
    · have : a = b := str_eq_of_not_lt (by simpa using hab) (by simpa using hba)
      exact Or.inl (Or.inr (by rw [this]; exact beq_self_eq_true b))

theorem childLE_trans (a b c : FolderRec) (hab : childLE a b = true)
    (hbc : childLE b c = true) : childLE a c = true := by
  unfold childLE at hab hbc ⊢
  rw [Bool.or_eq_true] at hab hbc ⊢
  rcases hab with hab | hab
  · rcases hbc with hbc | hbc
    · exact Or.inl (charListLt_trans _ _ _ hab hbc)
    · rw [Bool.and_eq_true] at hbc
      rw [eq_of_beq hbc.1] at hab
      exact Or.inl hab
  · rw [Bool.and_eq_true] at hab
    rcases hbc with hbc | hbc
    · rw [← eq_of_beq hab.1] at hbc
      exact Or.inl hbc
    · rw [Bool.and_eq_true] at hbc
      refine Or.inr ?_
      rw [Bool.and_eq_true]
      refine ⟨?_, strLe_trans hab.2 hbc.2⟩
      rw [eq_of_beq hab.1]
      exact hbc.1

theorem childLE_total (a b : FolderRec) :
    childLE a b = true ∨ childLE b a = true := by
  unfold childLE
  rw [Bool.or_eq_true, Bool.or_eq_true, Bool.and_eq_true, Bool.and_eq_true]
  by_cases hab : strLt (pyLower a.name) (pyLower b.name) = true
  · exact Or.inl (Or.inl hab)
  · by_cases hba : strLt (pyLower b.name) (pyLower a.name) = true
    · exact Or.inr (Or.inl hba)
    · have hname : pyLower a.name = pyLower b.name :=
        str_eq_of_not_lt (by simpa using hab) (by simpa using hba)
      rcases strLe_total a.id b.id with hid | hid
      · exact Or.inl (Or.inr ⟨by rw [hname]; exact beq_self_eq_true _, hid⟩)
      · exact Or.inr (Or.inr ⟨by rw [hname]; exact beq_self_eq_true _, hid⟩)

/-! ## Claim theorems for the children of a folder -/

/-- Modelled from the spec's wording, for comparison only: the children
of a folder id taken as the records whose FIRST parent equals the id,
with the same sort; the code's `get_children` differs. -/
def childrenFirstParentSpec (raw : List FolderRec) (pid : String) : List FolderRec :=
  pySorted childLE (raw.filter (fun f => f.parents.head? == some pid))

/-- C1 counterexample: a record whose parents list contains the id in a
non-first position IS a child of that id for the code: with one record
whose parents are ["A", "B"], the code's sorted children of "B" contain
the record, while the spec's first-parent-only children of "B" are
empty. -/
theorem C1_counterexample :
    sortedChildren [⟨"x", "N", ["A", "B"]⟩] "B" = [⟨"x", "N", ["A", "B"]⟩]
    ∧ childrenFirstParentSpec [⟨"x", "N", ["A", "B"]⟩] "B" = []
    ∧ sortedChildren [⟨"x", "N", ["A", "B"]⟩] "B" ≠
        childrenFirstParentSpec [⟨"x", "N", ["A", "B"]⟩] "B" := by
  refine ⟨by decide, by decide, by decide⟩

/-- C1 amended: the children of a folder id are exactly those records
whose parents list contains the id in ANY position (the first parent is
not privileged), and for every parent id the children the traversal
recurses into are ordered by the pair (name lowercased, id). -/
theorem C1_children_any_parent_sorted (raw : List FolderRec) (pid : String) :
    (∀ f : FolderRec, f ∈ sortedChildren raw pid ↔ f ∈ raw ∧ pid ∈ f.parents)
    ∧ (sortedChildren raw pid).Pairwise (fun a b => childLE a b = true) := by
  constructor
  · intro f
    rw [sortedChildren, mem_pySorted]
    exact mem_get_children
  · haveI htot : IsTotal FolderRec (fun a b => childLE a b = true) :=
      ⟨childLE_total⟩
    haveI htrans : IsTrans FolderRec (fun a b => childLE a b = true) :=
      ⟨childLE_trans⟩
    exact List.sorted_insertionSort (fun a b => childLE a b = true)
      (get_children raw pid)

end DriveCopy
